import Mathlib

/-!
Verification of the SS14 Displacer Studio raster-editing engine.

This file shallowly embeds the core operations of the application:

* the selection-mask algebra (`apply_selection_op`, `invert_selection` from
  `displacer/selection_tools.py`),
* the magic-wand flood fill (`magic_select` from `displacer/selection_tools.py`),
* the brush painting routine (`paint_displacement` from `displacer/core.py`),
* the displacement compositor (`apply_ss14_displacement` from
  `displacer/image_processing.py`),
* the bounded undo log (`save_state` / `undo` from `displacer/core.py`),

and proves the spec's testable properties about them.

Modelling conventions: RGBA pixels are four `Nat` channels (real images hold
8-bit channels, so validity `≤ 255` is an explicit hypothesis where it
matters); a raster is a width, a height and a total pixel function; masks are
single-channel rasters.  PIL images are only ever absent or present, so
optional rasters become `Option`.  Python integer arithmetic is arbitrary
precision and is embedded as `Int`/`Nat` arithmetic.
-/

/-- A pixel coordinate `(x, y)`. -/
abbrev Pix := Nat × Nat

/-- One RGBA pixel.  Channels are natural numbers; real 8-bit rasters satisfy
`≤ 255` per channel, stated as `ValidImg` where needed. -/
structure RGBA where
  r : Nat
  g : Nat
  b : Nat
  a : Nat
deriving DecidableEq

/-- An RGBA raster: dimensions plus a total pixel accessor `pix x y`. -/
structure Img where
  width : Nat
  height : Nat
  pix : Nat → Nat → RGBA

/-- A single-channel selection mask (`PIL` mode "L"); `pix x y` is the mask
value at `(x, y)` (0 or 255 in the application). -/
structure Mask where
  width : Nat
  height : Nat
  pix : Nat → Nat → Nat

/-- 8-bit validity of a raster: every channel of every pixel is at most 255. -/
def ValidImg (img : Img) : Prop :=
  ∀ x y : Nat, (img.pix x y).r ≤ 255 ∧ (img.pix x y).g ≤ 255 ∧
    (img.pix x y).b ≤ 255 ∧ (img.pix x y).a ≤ 255

/-- The selection combinators of `apply_selection_op`
(`displacer/selection_tools.py`), matching the radio-button values
`"replace" / "add" / "subtract" / "intersect"`. -/
inductive SelOp where
  | replace
  | add
  | subtract
  | intersect
deriving DecidableEq

/-- `apply_selection_op(current_mask, new_selection, op)` from
`displacer/selection_tools.py` lines 61-80.  A `None` PIL image is falsy, so
the Python guards `if not new_selection` / `if not current_mask` become
`Option` matches.  `np.maximum` / `np.where` / `np.minimum` act per pixel. -/
def apply_selection_op (current_mask : Option Mask) (new_selection : Option Mask)
    (op : SelOp) : Option Mask :=
  match new_selection with
  | none => current_mask
  | some newSel =>
    match current_mask with
    | none => some newSel
    | some old =>
      if op = SelOp.replace then some newSel
      else
        match op with
        | SelOp.add =>
          some ⟨old.width, old.height, fun x y => max (old.pix x y) (newSel.pix x y)⟩
        | SelOp.subtract =>
          some ⟨old.width, old.height, fun x y => if newSel.pix x y > 0 then 0 else old.pix x y⟩
        | SelOp.intersect =>
          some ⟨old.width, old.height, fun x y => min (old.pix x y) (newSel.pix x y)⟩
        | SelOp.replace => some newSel

/-- `invert_selection(mask)` from `displacer/selection_tools.py` lines 82-88:
`None` stays `None`; otherwise each pixel `v` becomes `255 - v` (mask values
are 8-bit, so the `uint8` subtraction never wraps). -/
def invert_selection (mask : Option Mask) : Option Mask :=
  match mask with
  | none => none
  | some m => some ⟨m.width, m.height, fun x y => 255 - m.pix x y⟩

/-- A concrete all-255 one-pixel mask, used as a counterexample input. -/
def fullMask1 : Mask := ⟨1, 1, fun _ _ => 255⟩

/-- C1 counterexample: combining an absent current mask with an all-255
incoming mask under `Intersect` does not return an all-zero mask — the code
returns the incoming mask itself, whose pixel (0,0) is 255. -/
theorem c1_absent_current_counterexample :
    ¬ (∀ mk : Mask, apply_selection_op none (some fullMask1) SelOp.intersect = some mk →
        ∀ a b : Nat, mk.pix a b = 0) := by
  intro h
  have h2 := h fullMask1 rfl 0 0
  simp [fullMask1] at h2

/-- C1 (amended): when the current selection mask is absent,
`apply_selection_op` returns the incoming mask unchanged for every op —
`Add`, `Intersect` and `Subtract` alike behave as `Replace` does. -/
theorem c1_absent_current_amended (incoming : Mask) (op : SelOp) :
    apply_selection_op none (some incoming) op = some incoming := rfl

/-- C4 counterexample: inverting an absent selection mask does not produce an
all-255 mask; `invert_selection` returns no mask at all. -/
theorem c4_invert_absent_counterexample :
    invert_selection none = none ∧ ∀ m : Mask, invert_selection none ≠ some m := by
  refine ⟨rfl, fun m h => ?_⟩
  simp [invert_selection] at h

/-- C4 (amended): inverting an absent mask leaves the selection absent, and
inverting a concrete mask yields its per-pixel complement `255 - v`. -/
theorem c4_invert_amended :
    invert_selection none = none ∧
    ∀ m : Mask, invert_selection (some m) =
      some ⟨m.width, m.height, fun x y => 255 - m.pix x y⟩ :=
  ⟨rfl, fun _ => rfl⟩

/-- `save_state` from `displacer/core.py` lines 204-208: if a displacement
image is present, append a copy to the undo stack (copies are values in the
pure model) and, when the stack length exceeds `max_undo_steps`, discard the
oldest entry (`pop(0)`). -/
def save_state (undo_stack : List Img) (max_undo_steps : Nat)
    (displacement_image : Option Img) : List Img :=
  match displacement_image with
  | none => undo_stack
  | some img =>
    let s := undo_stack ++ [img]
    if s.length > max_undo_steps then s.drop 1 else s

/-- `undo` from `displacer/core.py` lines 210-213: if the undo stack is
nonempty, pop its most recent entry (Python `list.pop()` takes the last
element) and make it the current displacement image; otherwise do nothing. -/
def undo (undo_stack : List Img) (displacement_image : Option Img) :
    List Img × Option Img :=
  match undo_stack with
  | [] => ([], displacement_image)
  | st => (st.dropLast, st.getLast?)

/-- Pushing any sequence of snapshots onto an empty undo stack capped at a
positive `cap` retains exactly the most recent `cap` of them. -/
theorem save_state_foldl_drop (cap : Nat) (hcap : 0 < cap) (snaps : List Img) :
    snaps.foldl (fun st im => save_state st cap (some im)) [] =
      snaps.drop (snaps.length - cap) := by
  induction snaps using List.reverseRecOn with
  | nil => simp
  | append_singleton l a ih =>
    rw [List.foldl_append, List.foldl_cons, List.foldl_nil, ih]
    simp only [save_state]
    rcases Nat.lt_or_ge l.length cap with hlt | hge
    · have h0 : l.length - cap = 0 := Nat.sub_eq_zero_of_le (Nat.le_of_lt hlt)
      have h0' : l.length + 1 - cap = 0 := Nat.sub_eq_zero_of_le hlt
      simp only [h0, List.drop_zero]
      rw [if_neg (by simp only [List.length_append, List.length_singleton]; omega)]
      simp [h0']
    · have hdlen : (l.drop (l.length - cap)).length = cap := by
        rw [List.length_drop]; omega
      rw [if_pos (by simp only [List.length_append, List.length_singleton, hdlen]; omega)]
      rw [List.drop_append_of_le_length (by rw [hdlen]; omega)]
      rw [List.drop_drop]
      simp only [List.length_append, List.length_singleton]
      rw [List.drop_append_of_le_length (by omega)]
      have harith : l.length - cap + 1 = l.length + 1 - cap := by omega
      rw [harith]

/-- C5: after pushing 15 snapshots onto an undo stack capped at 10, exactly
the 10 most recently pushed snapshots are retained (in push order); each
`undo` pops the most recent remaining snapshot (LIFO); and `undo` on an empty
stack changes nothing. -/
theorem undo_log_bounded_lifo :
    (∀ snaps : List Img, snaps.length = 15 →
      snaps.foldl (fun st im => save_state st 10 (some im)) [] = snaps.drop 5) ∧
    (∀ (l : List Img) (a : Img) (d : Option Img), undo (l ++ [a]) d = (l, some a)) ∧
    (∀ d : Option Img, undo ([] : List Img) d = ([], d)) := by
  refine ⟨fun snaps hlen => ?_, fun l a d => ?_, fun d => rfl⟩
  · have := save_state_foldl_drop 10 (by omega) snaps
    rw [hlen] at this
    exact this
  · cases l with
    | nil => simp [undo]
    | cons x xs =>
      have h1 : ((x :: xs) ++ [a]).dropLast = x :: xs := List.dropLast_concat
      have h2 : ((x :: xs) ++ [a]).getLast? = some a := List.getLast?_concat (x :: xs)
      simp only [List.cons_append] at h1 h2
      simp [undo, h1, h2]

/-- Constant one-pixel raster used to build concrete undo-log snapshots. -/
def constImg (v : Nat) : Img := ⟨1, 1, fun _ _ => ⟨v, 0, 0, 255⟩⟩

/-- Witness for C5 at a concrete input: fifteen concrete snapshots pushed onto
the capped stack leave exactly the last ten, and popping returns the most
recent one. -/
theorem undo_log_bounded_lifo_witness :
    ((List.range 15).map constImg).foldl (fun st im => save_state st 10 (some im)) [] =
      ((List.range 15).map constImg).drop 5 ∧
    undo ([constImg 0] ++ [constImg 1]) none = ([constImg 0], some (constImg 1)) ∧
    undo ([] : List Img) none = ([], none) :=
  ⟨undo_log_bounded_lifo.1 ((List.range 15).map constImg) (by simp),
   undo_log_bounded_lifo.2.1 [constImg 0] (constImg 1) none,
   undo_log_bounded_lifo.2.2 none⟩

/-- `apply_ss14_displacement(reference, displacement)` from
`displacer/image_processing.py` lines 21-52, same-size path (when the sizes
differ the code first resizes the displacement with nearest-neighbour
resampling; the codec-level resize is outside the modelled core, and the
theorems below carry an explicit same-size hypothesis).  Per output pixel:
offsets are `R-128` / `G-128`, the sample coordinate is `clip(x+off, 0, w-1)`
(the `float32` round of an exact integer sum is that integer), and a
displacement pixel with alpha 0 forces the output pixel to `(0,0,0,0)` — the
vectorised code computes the sample for every pixel and then overwrites the
transparent ones, which is pixelwise identical to this early test. -/
def apply_ss14_displacement (reference displacement : Img) : Img :=
  ⟨reference.width, reference.height, fun x y =>
    let dp := displacement.pix x y
    if dp.a = 0 then ⟨0, 0, 0, 0⟩
    else
      let offset_x : Int := (dp.r : Int) - 128
      let offset_y : Int := (dp.g : Int) - 128
      let sample_x := max 0 (min ((reference.width : Int) - 1) ((x : Int) + offset_x))
      let sample_y := max 0 (min ((reference.height : Int) - 1) ((y : Int) + offset_y))
      reference.pix sample_x.toNat sample_y.toNat⟩

/-- The neutral-opaque displacement encoding `(128,128,0,255)`. -/
def neutralOpaque : RGBA := ⟨128, 128, 0, 255⟩

/-- C8: applying a displacement raster of the reference's size whose every
pixel is the neutral-opaque encoding `(128,128,0,255)` yields an output that
is pixel-identical to the reference (same dimensions, same pixel at every
in-bounds coordinate). -/
theorem neutral_displacement_identity (reference displacement : Img)
    (hw : displacement.width = reference.width)
    (hh : displacement.height = reference.height)
    (hneutral : ∀ x y : Nat, displacement.pix x y = neutralOpaque) :
    (apply_ss14_displacement reference displacement).width = reference.width ∧
    (apply_ss14_displacement reference displacement).height = reference.height ∧
    ∀ x y : Nat, x < reference.width → y < reference.height →
      (apply_ss14_displacement reference displacement).pix x y = reference.pix x y := by
  refine ⟨rfl, rfl, fun x y hx hy => ?_⟩
  simp only [apply_ss14_displacement, hneutral, neutralOpaque]
  norm_num
  have hsx : max 0 (min ((reference.width : Int) - 1) (x : Int)) = (x : Int) := by
    omega
  have hsy : max 0 (min ((reference.height : Int) - 1) (y : Int)) = (y : Int) := by
    omega
  rw [hsx, hsy, Int.toNat_ofNat, Int.toNat_ofNat]

/-- A two-pixel reference raster with distinct pixels, for witnesses. -/
def refTwo : Img :=
  ⟨2, 1, fun x _ => if x = 0 then ⟨10, 20, 30, 255⟩ else ⟨40, 50, 60, 255⟩⟩

/-- A two-pixel all-neutral-opaque displacement raster, for witnesses. -/
def dispNeutralTwo : Img := ⟨2, 1, fun _ _ => neutralOpaque⟩

/-- Witness for C8 at a concrete input: the neutral displacement leaves a
concrete two-pixel reference unchanged. -/
theorem neutral_displacement_identity_witness :
    (apply_ss14_displacement refTwo dispNeutralTwo).width = refTwo.width ∧
    (apply_ss14_displacement refTwo dispNeutralTwo).height = refTwo.height ∧
    ∀ x y : Nat, x < refTwo.width → y < refTwo.height →
      (apply_ss14_displacement refTwo dispNeutralTwo).pix x y = refTwo.pix x y :=
  neutral_displacement_identity refTwo dispNeutralTwo rfl rfl (fun _ _ => rfl)

/-- C9: a displacement pixel with alpha 0 forces the corresponding output
pixel of `apply_ss14_displacement` to `(0,0,0,0)`, whatever its R and G
values (same-size rasters; coordinates need not even be in bounds, the guard
is pointwise). -/
theorem transparent_guard (reference displacement : Img) (x y : Nat)
    (hw : displacement.width = reference.width)
    (hh : displacement.height = reference.height)
    (halpha : (displacement.pix x y).a = 0) :
    (apply_ss14_displacement reference displacement).pix x y = ⟨0, 0, 0, 0⟩ := by
  simp [apply_ss14_displacement, halpha]

/-- A two-pixel displacement raster that is transparent at `(0,0)` with
garbage R/G there, and opaque at `(1,0)`. -/
def dispTransTwo : Img :=
  ⟨2, 1, fun x _ => if x = 0 then ⟨7, 200, 0, 0⟩ else ⟨130, 128, 0, 255⟩⟩

/-- Witness for C9 at a concrete input: the transparent displacement pixel at
`(0,0)` yields the fully transparent output pixel there. -/
theorem transparent_guard_witness :
    (apply_ss14_displacement refTwo dispTransTwo).pix 0 0 = ⟨0, 0, 0, 0⟩ :=
  transparent_guard refTwo dispTransTwo 0 0 rfl rfl rfl

/-- The two tools that reach `paint_displacement` (`canvas_click` /
`canvas_drag` in `displacer/core.py` only call it for `"paint"` and
`"erase"`). -/
inductive Tool where
  | paint
  | erase
deriving DecidableEq

/-- The four brush directions of `displacement_direction`. -/
inductive Dir where
  | right
  | left
  | up
  | down
deriving DecidableEq

/-- The `direction_modifiers` table of `displacer/core.py` lines 363-366:
the signed per-channel increments `(mod_r, mod_g)`. -/
def dirMod (direction : Dir) (strength : Int) : Int × Int :=
  match direction with
  | Dir.right => (strength, 0)
  | Dir.left => (-strength, 0)
  | Dir.up => (0, -strength)
  | Dir.down => (0, strength)

/-- `max(0, min(255, v))` from `displacer/core.py` lines 388-389, landing back
in the 8-bit channel range. -/
def clamp255 (v : Int) : Nat := (max 0 (min 255 v)).toNat

/-- The per-pixel selection guard
`self.selection_active and self.selection_mask and mask.getpixel(p) == 0`
(`displacer/core.py` lines 351-352 and 380). -/
def maskBlocks (selection_active : Bool) (selection_mask : Option Mask)
    (px py : Nat) : Bool :=
  selection_active &&
    match selection_mask with
    | none => false
    | some m => m.pix px py == 0

/-- `Image.putpixel`: replace one pixel, leave everything else. -/
def putpixel (img : Img) (p : Pix) (c : RGBA) : Img :=
  ⟨img.width, img.height, fun a b => if a = p.1 ∧ b = p.2 then c else img.pix a b⟩

/-- The new value of one painted pixel (`displacer/core.py` lines 383-390):
erase resets to the neutral-transparent encoding, paint adds the signed
modifiers to R and G with clamping and forces alpha to 255 (B untouched). -/
def paintPixelVal (tool : Tool) (mod_r mod_g : Int) (c : RGBA) : RGBA :=
  match tool with
  | Tool.erase => ⟨128, 128, 0, 0⟩
  | Tool.paint =>
    ⟨clamp255 ((c.r : Int) + mod_r), clamp255 ((c.g : Int) + mod_g), c.b, 255⟩

/-- `range(-radius, radius + 1)` as a list of integers. -/
def offsets (radius : Nat) : List Int :=
  (List.range (2 * radius + 1)).map (fun (i : Nat) => (i : Int) - (radius : Int))

/-- The loop body of `paint_displacement` (`displacer/core.py` lines 370-392)
for one brush offset `(dx, dy)`: skip when out of bounds, outside the
circular footprint, or blocked by the selection; otherwise rewrite the pixel.
`math.sqrt(dx*dx+dy*dy) > radius` on integers is exactly
`dx*dx+dy*dy > radius*radius` (the double sqrt of an exact small integer is
correctly rounded, so the comparison agrees). -/
def paintBody (tool : Tool) (mod_r mod_g : Int) (selection_active : Bool)
    (selection_mask : Option Mask) (radius : Nat) (x y : Int) (img : Img)
    (dx dy : Int) : Img :=
  let px := x + dx
  let py := y + dy
  if px < 0 ∨ py < 0 ∨ px ≥ (img.width : Int) ∨ py ≥ (img.height : Int) then img
  else if dx * dx + dy * dy > (radius : Int) * (radius : Int) then img
  else if maskBlocks selection_active selection_mask px.toNat py.toNat then img
  else
    putpixel img (px.toNat, py.toNat)
      (paintPixelVal tool mod_r mod_g (img.pix px.toNat py.toNat))

/-- The fields of the editor session that `paint_displacement` reads. -/
structure PaintState where
  displacement_image : Img
  selection_active : Bool
  selection_mask : Option Mask
  current_tool : Tool
  displacement_direction : Dir
  brush_size : Nat
  paint_strength : Int

/-- `mod_r, mod_g = direction_modifiers.get(direction, (0,0)) if tool ==
"paint" else (0, 0)` (`displacer/core.py` line 368). -/
def strokeMods (st : PaintState) : Int × Int :=
  if st.current_tool = Tool.paint then
    dirMod st.displacement_direction st.paint_strength
  else (0, 0)

/-- `paint_displacement(self, x, y)` from `displacer/core.py` lines 347-392:
an early return when the selection is active and the mask is 0 at the stroke
center (the caller passes in-bounds coordinates), then the nested
`dy` / `dx` brush loop.  `brush_size // 2` is `Nat` division. -/
def paint_displacement (st : PaintState) (x y : Int) : Img :=
  if maskBlocks st.selection_active st.selection_mask x.toNat y.toNat then
    st.displacement_image
  else
    let radius := st.brush_size / 2
    let m := strokeMods st
    (offsets radius).foldl (fun img dy =>
      (offsets radius).foldl (fun img dx =>
        paintBody st.current_tool m.1 m.2 st.selection_active st.selection_mask
          radius x y img dx dy) img) st.displacement_image

/-- C10: if a selection is active and the mask value at the stroke's center is
0, `paint_displacement` returns the displacement raster unchanged — no pixel
of the brush footprint is touched, whatever the mask says elsewhere. -/
theorem selection_center_guard (st : PaintState) (x y : Int) (m : Mask)
    (hactive : st.selection_active = true)
    (hmask : st.selection_mask = some m)
    (hzero : m.pix x.toNat y.toNat = 0) :
    paint_displacement st x y = st.displacement_image := by
  simp [paint_displacement, maskBlocks, hactive, hmask, hzero]

/-- A selection mask that is 0 exactly at `(1,1)` and 255 elsewhere. -/
def maskHole : Mask := ⟨3, 3, fun a b => if a = 1 ∧ b = 1 then 0 else 255⟩

/-- A 3x3 session with an active selection, large brush, centered strokes. -/
def holeState : PaintState :=
  ⟨⟨3, 3, fun _ _ => neutralOpaque⟩, true, some maskHole, Tool.paint, Dir.right, 5, 10⟩

/-- Witness for C10 at a concrete input: stroking at the masked-out center of
a 3x3 canvas with a radius-2 brush changes nothing, although the footprint
pixels around the center have mask value 255. -/
theorem selection_center_guard_witness :
    paint_displacement holeState 1 1 = holeState.displacement_image ∧
    maskHole.pix 0 0 = 255 :=
  ⟨selection_center_guard holeState 1 1 maskHole rfl rfl (by decide), rfl⟩

/-- Eligibility of pixel `(a, b)` for a stroke centered at `(x, y)`: in
bounds, inside the circular brush footprint, and not blocked by the
selection — the three per-pixel guards of the brush loop. -/
def eligPix (selection_active : Bool) (selection_mask : Option Mask)
    (radius : Nat) (x y : Int) (w h : Nat) (a b : Nat) : Prop :=
  a < w ∧ b < h ∧
  ((a : Int) - x) * ((a : Int) - x) + ((b : Int) - y) * ((b : Int) - y) ≤
    (radius : Int) * (radius : Int) ∧
  maskBlocks selection_active selection_mask a b = false

/-- `paintBody` keeps the raster's width. -/
lemma paintBody_width (tool : Tool) (mod_r mod_g : Int) (act : Bool)
    (mask : Option Mask) (radius : Nat) (x y : Int) (img : Img) (dx dy : Int) :
    (paintBody tool mod_r mod_g act mask radius x y img dx dy).width = img.width := by
  simp only [paintBody, putpixel]
  split_ifs <;> rfl

/-- `paintBody` keeps the raster's height. -/
lemma paintBody_height (tool : Tool) (mod_r mod_g : Int) (act : Bool)
    (mask : Option Mask) (radius : Nat) (x y : Int) (img : Img) (dx dy : Int) :
    (paintBody tool mod_r mod_g act mask radius x y img dx dy).height = img.height := by
  simp only [paintBody, putpixel]
  split_ifs <;> rfl

/-- Reading a pixel back from `putpixel`. -/
lemma putpixel_pix (img : Img) (p : Pix) (c : RGBA) (a b : Nat) :
    (putpixel img p c).pix a b = if a = p.1 ∧ b = p.2 then c else img.pix a b := rfl

instance eligPixDecidable (act : Bool) (mask : Option Mask) (radius : Nat)
    (x y : Int) (w h a b : Nat) : Decidable (eligPix act mask radius x y w h a b) := by
  unfold eligPix
  infer_instance

/-- What one brush-loop iteration does to an arbitrary pixel `(a, b)`: the
pixel is rewritten exactly when this offset lands on it and it passes the
three guards, and is untouched otherwise. -/
lemma paintBody_pix (tool : Tool) (mod_r mod_g : Int) (act : Bool)
    (mask : Option Mask) (radius : Nat) (x y : Int) (img : Img) (dx dy : Int)
    (a b : Nat) :
    (paintBody tool mod_r mod_g act mask radius x y img dx dy).pix a b =
      if x + dx = (a : Int) ∧ y + dy = (b : Int) ∧
          eligPix act mask radius x y img.width img.height a b then
        paintPixelVal tool mod_r mod_g (img.pix a b)
      else img.pix a b := by
  have hbody : paintBody tool mod_r mod_g act mask radius x y img dx dy =
      (if x + dx < 0 ∨ y + dy < 0 ∨ x + dx ≥ (img.width : Int) ∨
          y + dy ≥ (img.height : Int) then img
       else if dx * dx + dy * dy > (radius : Int) * (radius : Int) then img
       else if maskBlocks act mask (x + dx).toNat (y + dy).toNat then img
       else putpixel img ((x + dx).toNat, (y + dy).toNat)
         (paintPixelVal tool mod_r mod_g
           (img.pix (x + dx).toNat (y + dy).toNat))) := rfl
  rw [hbody]
  by_cases hwx : x + dx = (a : Int)
  · by_cases hwy : y + dy = (b : Int)
    · have hax : (x + dx).toNat = a := by omega
      have hby : (y + dy).toNat = b := by omega
      rw [hax, hby]
      by_cases helig : eligPix act mask radius x y img.width img.height a b
      · obtain ⟨h1, h2, h3, h4⟩ := helig
        have hnb : ¬(x + dx < 0 ∨ y + dy < 0 ∨ x + dx ≥ (img.width : Int) ∨
            y + dy ≥ (img.height : Int)) := by omega
        have hnd : ¬(dx * dx + dy * dy > (radius : Int) * (radius : Int)) := by
          rw [show dx = (a : Int) - x by omega, show dy = (b : Int) - y by omega]
          exact not_lt.mpr h3
        have hnm : ¬(maskBlocks act mask a b = true) := by simp [h4]
        rw [if_neg hnb, if_neg hnd, if_neg hnm, putpixel_pix,
          if_pos (show a = ((a : Nat), b).1 ∧ b = ((a : Nat), b).2 from ⟨rfl, rfl⟩),
          if_pos ⟨hwx, hwy, h1, h2, h3, h4⟩]
      · rw [if_neg (show ¬(x + dx = (a : Int) ∧ y + dy = (b : Int) ∧
            eligPix act mask radius x y img.width img.height a b) from
            fun hcon => helig hcon.2.2)]
        by_cases hb1 : a < img.width ∧ b < img.height
        · by_cases hb2 : ((a : Int) - x) * ((a : Int) - x) +
              ((b : Int) - y) * ((b : Int) - y) ≤ (radius : Int) * (radius : Int)
          · have hm : maskBlocks act mask a b = true := by
              cases hmb : maskBlocks act mask a b with
              | false => exact absurd ⟨hb1.1, hb1.2, hb2, hmb⟩ helig
              | true => rfl
            have hnb : ¬(x + dx < 0 ∨ y + dy < 0 ∨ x + dx ≥ (img.width : Int) ∨
                y + dy ≥ (img.height : Int)) := by omega
            have hnd : ¬(dx * dx + dy * dy > (radius : Int) * (radius : Int)) := by
              rw [show dx = (a : Int) - x by omega, show dy = (b : Int) - y by omega]
              exact not_lt.mpr hb2
            rw [if_neg hnb, if_neg hnd, if_pos hm]
          · have hnb : ¬(x + dx < 0 ∨ y + dy < 0 ∨ x + dx ≥ (img.width : Int) ∨
                y + dy ≥ (img.height : Int)) := by omega
            have hd : dx * dx + dy * dy > (radius : Int) * (radius : Int) := by
              rw [show dx = (a : Int) - x by omega, show dy = (b : Int) - y by omega]
              exact not_le.mp hb2
            rw [if_neg hnb, if_pos hd]
        · have hbnd : x + dx < 0 ∨ y + dy < 0 ∨ x + dx ≥ (img.width : Int) ∨
              y + dy ≥ (img.height : Int) := by omega
          rw [if_pos hbnd]
    · rw [if_neg (show ¬(x + dx = (a : Int) ∧ y + dy = (b : Int) ∧
          eligPix act mask radius x y img.width img.height a b) from
          fun hcon => hwy hcon.2.1)]
      split_ifs with g1 g2 g3
      · rfl
      · rfl
      · rfl
      · rw [putpixel_pix,
          if_neg (show ¬(a = ((x + dx).toNat, (y + dy).toNat).1 ∧
            b = ((x + dx).toNat, (y + dy).toNat).2) from fun hcon => by
              have hc1 : a = (x + dx).toNat := hcon.1
              have hc2 : b = (y + dy).toNat := hcon.2
              omega)]
  · rw [if_neg (show ¬(x + dx = (a : Int) ∧ y + dy = (b : Int) ∧
        eligPix act mask radius x y img.width img.height a b) from
        fun hcon => hwx hcon.1)]
    split_ifs with g1 g2 g3
    · rfl
    · rfl
    · rfl
    · rw [putpixel_pix,
        if_neg (show ¬(a = ((x + dx).toNat, (y + dy).toNat).1 ∧
          b = ((x + dx).toNat, (y + dy).toNat).2) from fun hcon => by
            have hc1 : a = (x + dx).toNat := hcon.1
            have hc2 : b = (y + dy).toNat := hcon.2
            omega)]

/-- Folding `paintBody` over a duplicate-free row of `dx` offsets rewrites a
pixel exactly when some offset of the row lands on it and it is eligible. -/
lemma foldl_paintBody_row_pix (tool : Tool) (mod_r mod_g : Int) (act : Bool)
    (mask : Option Mask) (radius : Nat) (x y dy : Int) (a b : Nat) :
    ∀ (dxs : List Int) (img : Img), dxs.Nodup →
      ((dxs.foldl (fun im dx =>
          paintBody tool mod_r mod_g act mask radius x y im dx dy) img).pix a b =
        if (∃ dx ∈ dxs, x + dx = (a : Int)) ∧ y + dy = (b : Int) ∧
            eligPix act mask radius x y img.width img.height a b then
          paintPixelVal tool mod_r mod_g (img.pix a b)
        else img.pix a b) := by
  intro dxs
  induction dxs with
  | nil =>
    intro img _
    rw [List.foldl_nil, if_neg (by simp)]
  | cons dx dxs ih =>
    intro img hnd
    rw [List.foldl_cons,
      ih (paintBody tool mod_r mod_g act mask radius x y img dx dy)
        (List.nodup_cons.mp hnd).2,
      paintBody_width, paintBody_height, paintBody_pix]
    by_cases hC2 : x + dx = (a : Int) ∧ y + dy = (b : Int) ∧
        eligPix act mask radius x y img.width img.height a b
    · have hnotin : ¬ ∃ d ∈ dxs, x + d = (a : Int) := by
        rintro ⟨d, hd, hde⟩
        have hddx : d = dx := by omega
        exact (List.nodup_cons.mp hnd).1 (hddx ▸ hd)
    
      rw [if_pos hC2, if_neg (fun hcon => hnotin hcon.1),
        if_pos ⟨⟨dx, List.mem_cons_self dx dxs, hC2.1⟩, hC2.2⟩]
    · rw [if_neg hC2]
      by_cases hC1 : (∃ d ∈ dxs, x + d = (a : Int)) ∧ y + dy = (b : Int) ∧
          eligPix act mask radius x y img.width img.height a b
      · obtain ⟨⟨d, hd, hde⟩, hrest⟩ := hC1
        rw [if_pos ⟨⟨d, hd, hde⟩, hrest⟩,
          if_pos ⟨⟨d, List.mem_cons_of_mem dx hd, hde⟩, hrest⟩]
      · rw [if_neg hC1, if_neg (show ¬((∃ d ∈ dx :: dxs, x + d = (a : Int)) ∧
          y + dy = (b : Int) ∧
          eligPix act mask radius x y img.width img.height a b) from by
            rintro ⟨⟨d, hd, hde⟩, hrest⟩
            rcases List.mem_cons.mp hd with hdd | hd'
            · exact hC2 ⟨hdd ▸ hde, hrest⟩
            · exact hC1 ⟨⟨d, hd', hde⟩, hrest⟩)]

/-- The inner row fold keeps the raster's width. -/
lemma foldl_paintBody_row_width (tool : Tool) (mod_r mod_g : Int) (act : Bool)
    (mask : Option Mask) (radius : Nat) (x y dy : Int) :
    ∀ (dxs : List Int) (img : Img),
      (dxs.foldl (fun im dx =>
        paintBody tool mod_r mod_g act mask radius x y im dx dy) img).width =
        img.width := by
  intro dxs
  induction dxs with
  | nil => intro img; rfl
  | cons dx dxs ih =>
    intro img
    rw [List.foldl_cons, ih, paintBody_width]

/-- The inner row fold keeps the raster's height. -/
lemma foldl_paintBody_row_height (tool : Tool) (mod_r mod_g : Int) (act : Bool)
    (mask : Option Mask) (radius : Nat) (x y dy : Int) :
    ∀ (dxs : List Int) (img : Img),
      (dxs.foldl (fun im dx =>
        paintBody tool mod_r mod_g act mask radius x y im dx dy) img).height =
        img.height := by
  intro dxs
  induction dxs with
  | nil => intro img; rfl
  | cons dx dxs ih =>
    intro img
    rw [List.foldl_cons, ih, paintBody_height]

/-- Membership in `offsets radius`: exactly the integers of
`[-radius, radius]`. -/
lemma mem_offsets (radius : Nat) (d : Int) :
    d ∈ offsets radius ↔ -(radius : Int) ≤ d ∧ d ≤ (radius : Int) := by
  simp only [offsets, List.mem_map, List.mem_range]
  constructor
  · rintro ⟨i, hi, rfl⟩
    omega
  · rintro ⟨h1, h2⟩
    exact ⟨(d + radius).toNat, by omega, by omega⟩

/-- `offsets radius` has no duplicates. -/
lemma offsets_nodup (radius : Nat) : (offsets radius).Nodup := by
  unfold offsets
  refine List.Nodup.map ?_ (List.nodup_range _)
  intro i j hij
  simp only at hij
  omega

/-- The full nested brush loop rewrites a pixel exactly when some row and
column offset land on it and it is eligible. -/
lemma foldl_paintBody_grid_pix (tool : Tool) (mod_r mod_g : Int) (act : Bool)
    (mask : Option Mask) (radius : Nat) (x y : Int) (a b : Nat) :
    ∀ (dys : List Int) (img : Img), dys.Nodup →
      ((dys.foldl (fun im dy => (offsets radius).foldl (fun im2 dx =>
          paintBody tool mod_r mod_g act mask radius x y im2 dx dy) im) img).pix a b =
        if (∃ dy ∈ dys, y + dy = (b : Int)) ∧
            (∃ dx ∈ offsets radius, x + dx = (a : Int)) ∧
            eligPix act mask radius x y img.width img.height a b then
          paintPixelVal tool mod_r mod_g (img.pix a b)
        else img.pix a b) := by
  intro dys
  induction dys with
  | nil =>
    intro img _
    rw [List.foldl_nil, if_neg (by simp)]
  | cons dy dys ih =>
    intro img hnd
    rw [List.foldl_cons,
      ih ((offsets radius).foldl (fun im2 dx =>
        paintBody tool mod_r mod_g act mask radius x y im2 dx dy) img)
        (List.nodup_cons.mp hnd).2,
      foldl_paintBody_row_width, foldl_paintBody_row_height,
      foldl_paintBody_row_pix tool mod_r mod_g act mask radius x y dy a b
        (offsets radius) img (offsets_nodup radius)]
    by_cases hC2 : (∃ dx ∈ offsets radius, x + dx = (a : Int)) ∧ y + dy = (b : Int) ∧
        eligPix act mask radius x y img.width img.height a b
    · have hnotin : ¬ ∃ d ∈ dys, y + d = (b : Int) := by
        rintro ⟨d, hd, hde⟩
        have hddy : d = dy := by
          have := hC2.2.1
          omega
        exact (List.nodup_cons.mp hnd).1 (hddy ▸ hd)
      rw [if_pos hC2, if_neg (fun hcon => hnotin hcon.1),
        if_pos ⟨⟨dy, List.mem_cons_self dy dys, hC2.2.1⟩, hC2.1, hC2.2.2⟩]
    · rw [if_neg hC2]
      by_cases hC1 : (∃ d ∈ dys, y + d = (b : Int)) ∧
          (∃ dx ∈ offsets radius, x + dx = (a : Int)) ∧
          eligPix act mask radius x y img.width img.height a b
      · obtain ⟨⟨d, hd, hde⟩, hrest⟩ := hC1
        rw [if_pos ⟨⟨d, hd, hde⟩, hrest⟩,
          if_pos ⟨⟨d, List.mem_cons_of_mem dy hd, hde⟩, hrest⟩]
      · rw [if_neg hC1, if_neg (show ¬((∃ d ∈ dy :: dys, y + d = (b : Int)) ∧
          (∃ dx ∈ offsets radius, x + dx = (a : Int)) ∧
          eligPix act mask radius x y img.width img.height a b) from by
            rintro ⟨⟨d, hd, hde⟩, hrest⟩
            rcases List.mem_cons.mp hd with hdd | hd'
            · exact hC2 ⟨hrest.1, hdd ▸ hde, hrest.2⟩
            · exact hC1 ⟨⟨d, hd', hde⟩, hrest⟩)]


/-- An integer whose square is bounded by `r * r` (with `0 ≤ r`) lies in
`[-r, r]`. -/
lemma neg_le_le_of_sq_le_sq (u r : Int) (hr : 0 ≤ r) (h : u * u ≤ r * r) :
    -r ≤ u ∧ u ≤ r := by
  constructor
  · by_contra hc
    push_neg at hc
    have h1 : r < -u := by omega
    have h2 : r * r < (-u) * (-u) := mul_self_lt_mul_self hr h1
    have h3 : (-u) * (-u) = u * u := by ring
    linarith
  · by_contra hc
    push_neg at hc
    have h2 : r * r < u * u := mul_self_lt_mul_self hr hc
    linarith

/-- When the stroke center passes the selection guard, `paint_displacement`
acts pointwise: every eligible pixel is rewritten by `paintPixelVal`, every
other pixel is untouched. -/
lemma paint_displacement_pix (st : PaintState) (x y : Int)
    (hcenter : maskBlocks st.selection_active st.selection_mask x.toNat y.toNat = false)
    (a b : Nat) :
    (paint_displacement st x y).pix a b =
      if eligPix st.selection_active st.selection_mask (st.brush_size / 2) x y
          st.displacement_image.width st.displacement_image.height a b then
        paintPixelVal st.current_tool (strokeMods st).1 (strokeMods st).2
          (st.displacement_image.pix a b)
      else st.displacement_image.pix a b := by
  have hpd : paint_displacement st x y =
      (offsets (st.brush_size / 2)).foldl (fun img dy =>
        (offsets (st.brush_size / 2)).foldl (fun im2 dx =>
          paintBody st.current_tool (strokeMods st).1 (strokeMods st).2
            st.selection_active st.selection_mask (st.brush_size / 2) x y im2 dx dy)
          img) st.displacement_image := by
    simp [paint_displacement, hcenter]
  rw [hpd, foldl_paintBody_grid_pix st.current_tool (strokeMods st).1 (strokeMods st).2
    st.selection_active st.selection_mask (st.brush_size / 2) x y a b
    (offsets (st.brush_size / 2)) st.displacement_image (offsets_nodup _)]
  by_cases helig : eligPix st.selection_active st.selection_mask (st.brush_size / 2)
      x y st.displacement_image.width st.displacement_image.height a b
  · obtain ⟨h1, h2, h3, h4⟩ := helig
    have hux : ((a : Int) - x) * ((a : Int) - x) ≤
        ((st.brush_size / 2 : Nat) : Int) * ((st.brush_size / 2 : Nat) : Int) := by
      have := mul_self_nonneg ((b : Int) - y)
      linarith
    have huy : ((b : Int) - y) * ((b : Int) - y) ≤
        ((st.brush_size / 2 : Nat) : Int) * ((st.brush_size / 2 : Nat) : Int) := by
      have := mul_self_nonneg ((a : Int) - x)
      linarith
    obtain ⟨hxl, hxr⟩ := neg_le_le_of_sq_le_sq _ _ (by positivity) hux
    obtain ⟨hyl, hyr⟩ := neg_le_le_of_sq_le_sq _ _ (by positivity) huy
    rw [if_pos ⟨⟨(b : Int) - y, (mem_offsets _ _).mpr ⟨hyl, hyr⟩, by ring⟩,
        ⟨(a : Int) - x, (mem_offsets _ _).mpr ⟨hxl, hxr⟩, by ring⟩,
        h1, h2, h3, h4⟩,
      if_pos ⟨h1, h2, h3, h4⟩]
  · rw [if_neg (fun hcon => helig hcon.2.2), if_neg helig]

/-- `clamp255` always lands in the 8-bit range. -/
lemma clamp255_le (v : Int) : clamp255 v ≤ 255 := by
  unfold clamp255
  omega

/-- `clamp255` is the identity on in-range channel values. -/
lemma clamp255_coe (n : Nat) (h : n ≤ 255) : clamp255 ((n : Int)) = n := by
  unfold clamp255
  omega

/-- `strokeMods` for the paint tool is the direction table. -/
lemma strokeMods_paint (st : PaintState) (h : st.current_tool = Tool.paint) :
    strokeMods st = dirMod st.displacement_direction st.paint_strength := by
  simp [strokeMods, h]

/-- C2: a Directional paint stroke rewrites each affected pixel by adding the
signed strength to exactly one offset channel — +R for right, -R for left,
-G for up, +G for down — clamped to [0,255], forces alpha to 255, and leaves
the other offset channel (and B) unchanged. -/
theorem directional_stroke_single_channel (st : PaintState) (x y : Int)
    (a b : Nat) (htool : st.current_tool = Tool.paint)
    (hvalid : ValidImg st.displacement_image)
    (hcenter : maskBlocks st.selection_active st.selection_mask x.toNat y.toNat = false)
    (helig : eligPix st.selection_active st.selection_mask (st.brush_size / 2) x y
      st.displacement_image.width st.displacement_image.height a b) :
    (st.displacement_direction = Dir.right →
      (paint_displacement st x y).pix a b =
        ⟨clamp255 (((st.displacement_image.pix a b).r : Int) + st.paint_strength),
         (st.displacement_image.pix a b).g, (st.displacement_image.pix a b).b, 255⟩) ∧
    (st.displacement_direction = Dir.left →
      (paint_displacement st x y).pix a b =
        ⟨clamp255 (((st.displacement_image.pix a b).r : Int) - st.paint_strength),
         (st.displacement_image.pix a b).g, (st.displacement_image.pix a b).b, 255⟩) ∧
    (st.displacement_direction = Dir.up →
      (paint_displacement st x y).pix a b =
        ⟨(st.displacement_image.pix a b).r,
         clamp255 (((st.displacement_image.pix a b).g : Int) - st.paint_strength),
         (st.displacement_image.pix a b).b, 255⟩) ∧
    (st.displacement_direction = Dir.down →
      (paint_displacement st x y).pix a b =
        ⟨(st.displacement_image.pix a b).r,
         clamp255 (((st.displacement_image.pix a b).g : Int) + st.paint_strength),
         (st.displacement_image.pix a b).b, 255⟩) := by
  have hp := paint_displacement_pix st x y hcenter a b
  rw [if_pos helig, strokeMods_paint st htool, htool] at hp
  have hr : (st.displacement_image.pix a b).r ≤ 255 := (hvalid a b).1
  have hg : (st.displacement_image.pix a b).g ≤ 255 := (hvalid a b).2.1
  refine ⟨fun hdir => ?_, fun hdir => ?_, fun hdir => ?_, fun hdir => ?_⟩ <;>
    rw [hp, hdir] <;>
    simp [paintPixelVal, dirMod, add_zero, sub_eq_add_neg,
      clamp255_coe _ hr, clamp255_coe _ hg]

/-- A one-pixel paint session: no selection, paint right, strength 5. -/
def wStrokeState : PaintState :=
  ⟨⟨1, 1, fun _ _ => ⟨10, 20, 0, 255⟩⟩, false, none, Tool.paint, Dir.right, 1, 5⟩

/-- Witness for C2 at a concrete input: painting right with strength 5 on a
pixel `(10,20,0,255)` yields `(15,20,0,255)`. -/
theorem directional_stroke_single_channel_witness :
    (paint_displacement wStrokeState 0 0).pix 0 0 =
      ⟨clamp255 (((wStrokeState.displacement_image.pix 0 0).r : Int) +
        wStrokeState.paint_strength),
       (wStrokeState.displacement_image.pix 0 0).g,
       (wStrokeState.displacement_image.pix 0 0).b, 255⟩ :=
  (directional_stroke_single_channel wStrokeState 0 0 0 0 rfl
    (fun _ _ => (by decide :
      (10 : Nat) ≤ 255 ∧ (20 : Nat) ≤ 255 ∧ (0 : Nat) ≤ 255 ∧ (255 : Nat) ≤ 255))
    rfl (by decide)).1 rfl

/-- A one-pixel session whose pixel has R = 250, stroked right with
strength 200. -/
def satStrokeState : PaintState :=
  ⟨⟨1, 1, fun _ _ => ⟨250, 128, 0, 255⟩⟩, false, none, Tool.paint, Dir.right, 1, 200⟩

/-- C3: painting keeps every channel inside [0,255] — on a valid 8-bit
raster no channel ever wraps modulo 256 or overflows, for any starting value,
strength, tool and direction — and concretely, painting right with strength
200 on a pixel whose R channel is 250 saturates that channel at 255. -/
theorem paint_clamp_no_overflow :
    (∀ (st : PaintState) (x y : Int), ValidImg st.displacement_image →
      ValidImg (paint_displacement st x y)) ∧
    (paint_displacement satStrokeState 0 0).pix 0 0 = ⟨255, 128, 0, 255⟩ := by
  constructor
  · intro st x y hvalid a b
    by_cases hcenter : maskBlocks st.selection_active st.selection_mask
        x.toNat y.toNat = true
    · have hret : paint_displacement st x y = st.displacement_image := by
        simp [paint_displacement, hcenter]
      rw [hret]
      exact hvalid a b
    · have hc : maskBlocks st.selection_active st.selection_mask
          x.toNat y.toNat = false := by
        cases h : maskBlocks st.selection_active st.selection_mask x.toNat y.toNat with
        | true => exact absurd h hcenter
        | false => rfl
      rw [paint_displacement_pix st x y hc a b]
      by_cases helig : eligPix st.selection_active st.selection_mask
          (st.brush_size / 2) x y st.displacement_image.width
          st.displacement_image.height a b
      · rw [if_pos helig]
        cases htool : st.current_tool with
        | erase =>
          exact ⟨show (128 : Nat) ≤ 255 by decide, show (128 : Nat) ≤ 255 by decide,
            show (0 : Nat) ≤ 255 by decide, show (0 : Nat) ≤ 255 by decide⟩
        | paint =>
          exact ⟨clamp255_le _, clamp255_le _, (hvalid a b).2.2.1, le_refl 255⟩
      · rw [if_neg helig]
        exact hvalid a b
  · decide

/-- Witness for C3 at a concrete input: the saturating stroke's output raster
is still a valid 8-bit raster. -/
theorem paint_clamp_no_overflow_witness :
    ValidImg (paint_displacement satStrokeState 0 0) :=
  paint_clamp_no_overflow.1 satStrokeState 0 0
    (fun _ _ => (by decide :
      (250 : Nat) ≤ 255 ∧ (128 : Nat) ≤ 255 ∧ (0 : Nat) ≤ 255 ∧ (255 : Nat) ≤ 255))

/-- `np.sum(np.abs(current_color - seed_color))` over the RGB channels
(`magic_select` converts to RGB first, so alpha is ignored;
`displacer/selection_tools.py` lines 34-47). -/
def colorDiff (c1 c2 : RGBA) : Nat :=
  ((c1.r : Int) - (c2.r : Int)).natAbs + ((c1.g : Int) - (c2.g : Int)).natAbs +
    ((c1.b : Int) - (c2.b : Int)).natAbs

/-- One neighbour candidate of the flood fill
(`displacer/selection_tools.py` lines 51-55): if it is in bounds and not yet
visited, mark it visited and append it to the work queue. -/
def enqOne (w h : Nat) (qv : List Pix × List Pix) (n : Int × Int) :
    List Pix × List Pix :=
  if 0 ≤ n.1 ∧ n.1 < (w : Int) ∧ 0 ≤ n.2 ∧ n.2 < (h : Int) then
    if (n.1.toNat, n.2.toNat) ∈ qv.2 then qv
    else (qv.1 ++ [(n.1.toNat, n.2.toNat)], (n.1.toNat, n.2.toNat) :: qv.2)
  else qv

/-- The four neighbour offsets `(0,1), (0,-1), (1,0), (-1,0)` applied to
`(cx, cy)`, in the source's order. -/
def nbrCandidates (cx cy : Nat) : List (Int × Int) :=
  [((cx : Int), (cy : Int) + 1), ((cx : Int), (cy : Int) - 1),
   ((cx : Int) + 1, (cy : Int)), ((cx : Int) - 1, (cy : Int))]

/-- The `while queue:` loop of `magic_select`
(`displacer/selection_tools.py` lines 44-56), with an explicit fuel bound.
The queue is FIFO (`popleft` from the front, `append` at the back); a
dequeued pixel within tolerance of the seed color is marked and its
unvisited in-bounds neighbours are enqueued.  `marked` collects the pixels
set to 255 in the mask, `trace` the processed (dequeued) pixels.  The fuel
`width * height` passed by `magic_select_run` is never exhausted — every
pixel is enqueued at most once — which the termination theorem proves, so
this model agrees with the unbounded Python loop. -/
def floodLoop (img : Img) (seed_color : RGBA) (tolerance : Int) :
    Nat → List Pix → List Pix → List Pix → List Pix →
    Option (List Pix × List Pix)
  | _, [], _, marked, trace => some (marked, trace)
  | 0, _ :: _, _, _, _ => none
  | fuel + 1, (cx, cy) :: rest, visited, marked, trace =>
    if (colorDiff (img.pix cx cy) seed_color : Int) ≤ tolerance then
      let qv := (nbrCandidates cx cy).foldl (enqOne img.width img.height)
        (rest, visited)
      floodLoop img seed_color tolerance fuel qv.1 qv.2
        ((cx, cy) :: marked) ((cx, cy) :: trace)
    else
      floodLoop img seed_color tolerance fuel rest visited marked
        ((cx, cy) :: trace)

/-- `magic_select(image, x, y, tolerance)` from
`displacer/selection_tools.py` lines 28-59, returning both the marked pixels
(the 255 entries of the produced mask) and the processed trace: `None` when
the seed is out of bounds, otherwise the flood fill seeded at `(x, y)` with
the seed pixel pre-visited. -/
def magic_select_run (img : Img) (x y tolerance : Int) :
    Option (List Pix × List Pix) :=
  if x < 0 ∨ x ≥ (img.width : Int) ∨ y < 0 ∨ y ≥ (img.height : Int) then none
  else
    floodLoop img (img.pix x.toNat y.toNat) tolerance
      (img.width * img.height)
      [(x.toNat, y.toNat)] [(x.toNat, y.toNat)] [] []

/-- The set of pixels marked 255 in the mask returned by `magic_select`. -/
def magic_select (img : Img) (x y tolerance : Int) : Option (List Pix) :=
  (magic_select_run img x y tolerance).map Prod.fst

/-- 4-connectivity of two pixel coordinates. -/
def adjPix (p q : Pix) : Prop :=
  (p.1 = q.1 ∧ (p.2 + 1 = q.2 ∨ q.2 + 1 = p.2)) ∨
  (p.2 = q.2 ∧ (p.1 + 1 = q.1 ∨ q.1 + 1 = p.1))

/-- Reachability from the seed through a 4-connected path every pixel of
which (endpoints included) has RGB sum-of-absolute-differences from the seed
color at most `tolerance`. -/
inductive ReachTol (img : Img) (seed_color : RGBA) (tolerance : Int)
    (seed : Pix) : Pix → Prop
  | refl : (colorDiff (img.pix seed.1 seed.2) seed_color : Int) ≤ tolerance →
      ReachTol img seed_color tolerance seed seed
  | step (p q : Pix) : ReachTol img seed_color tolerance seed p → adjPix p q →
      (colorDiff (img.pix q.1 q.2) seed_color : Int) ≤ tolerance →
      ReachTol img seed_color tolerance seed q

/-- The loop invariant of the flood fill: the visited set is duplicate-free
and in bounds, queue and trace are visited, no pixel sits twice in
`trace ++ queue` (each pixel is enqueued at most once), and every queued
pixel is the seed or adjacent to a tolerance-reachable pixel. -/
structure FloodInv (img : Img) (seed_color : RGBA) (tolerance : Int)
    (seed : Pix) (queue visited trace : List Pix) : Prop where
  vis_nodup : visited.Nodup
  vis_inb : ∀ p ∈ visited, p.1 < img.width ∧ p.2 < img.height
  queue_vis : ∀ p ∈ queue, p ∈ visited
  trace_vis : ∀ p ∈ trace, p ∈ visited
  tq_nodup : (trace ++ queue).Nodup
  queue_reach : ∀ p ∈ queue, p = seed ∨
    ∃ q : Pix, ReachTol img seed_color tolerance seed q ∧ adjPix q p

/-- A duplicate-free list of in-bounds pixels has at most `w * h` entries. -/
lemma nodup_inb_length_le (w h : Nat) (l : List Pix) (hnd : l.Nodup)
    (hin : ∀ p ∈ l, p.1 < w ∧ p.2 < h) : l.length ≤ w * h := by
  classical
  have hsub : l.toFinset ⊆ Finset.range w ×ˢ Finset.range h := by
    intro p hp
    rw [List.mem_toFinset] at hp
    rcases hin p hp with ⟨h1, h2⟩
    simp only [Finset.mem_product, Finset.mem_range]
    exact ⟨h1, h2⟩
  calc l.length = l.toFinset.card := (List.toFinset_card_of_nodup hnd).symm
    _ ≤ (Finset.range w ×ˢ Finset.range h).card := Finset.card_le_card hsub
    _ = w * h := by rw [Finset.card_product, Finset.card_range, Finset.card_range]

/-- `colorDiff` of a color with itself is zero. -/
lemma colorDiff_self (c : RGBA) : colorDiff c c = 0 := by
  simp [colorDiff]

/-- The flood loop on an empty queue returns immediately, for any fuel. -/
lemma floodLoop_nil (img : Img) (seed_color : RGBA) (tolerance : Int)
    (fuel : Nat) (visited marked trace : List Pix) :
    floodLoop img seed_color tolerance fuel [] visited marked trace =
      some (marked, trace) := by
  cases fuel <;> rfl

/-- Folding `enqOne` over neighbour candidates of a tolerance-reachable pixel
preserves the flood invariant and never increases the termination measure
`|queue| + (w*h - |visited|)`. -/
lemma enqFold_inv (img : Img) (seed_color : RGBA) (tolerance : Int)
    (seed : Pix) (c : Pix) (trace : List Pix)
    (hc : ReachTol img seed_color tolerance seed c) :
    ∀ (cands : List (Int × Int)) (queue visited : List Pix),
      (∀ n ∈ cands, 0 ≤ n.1 → 0 ≤ n.2 → adjPix c (n.1.toNat, n.2.toNat)) →
      FloodInv img seed_color tolerance seed queue visited trace →
      FloodInv img seed_color tolerance seed
        (cands.foldl (enqOne img.width img.height) (queue, visited)).1
        (cands.foldl (enqOne img.width img.height) (queue, visited)).2 trace ∧
      (cands.foldl (enqOne img.width img.height) (queue, visited)).1.length +
        (img.width * img.height -
          (cands.foldl (enqOne img.width img.height) (queue, visited)).2.length) ≤
        queue.length + (img.width * img.height - visited.length) := by
  intro cands
  induction cands with
  | nil =>
    intro queue visited _ hinv
    exact ⟨hinv, le_refl _⟩
  | cons n cands ih =>
    intro queue visited hadj hinv
    rw [List.foldl_cons]
    by_cases hg : 0 ≤ n.1 ∧ n.1 < (img.width : Int) ∧ 0 ≤ n.2 ∧
        n.2 < (img.height : Int)
    · by_cases hvtd : (n.1.toNat, n.2.toNat) ∈ visited
      · have hstep : enqOne img.width img.height (queue, visited) n =
            (queue, visited) := by
          simp [enqOne, hg, hvtd]
        rw [hstep]
        exact ih queue visited (fun m hm => hadj m (List.mem_cons_of_mem n hm)) hinv
      · have hstep : enqOne img.width img.height (queue, visited) n =
            (queue ++ [(n.1.toNat, n.2.toNat)], (n.1.toNat, n.2.toNat) :: visited) := by
          simp [enqOne, hg, hvtd]
        rw [hstep]
        obtain ⟨hg1, hg2, hg3, hg4⟩ := hg
        have hpin1 : n.1.toNat < img.width := by omega
        have hpin2 : n.2.toNat < img.height := by omega
        have hinv' : FloodInv img seed_color tolerance seed
            (queue ++ [(n.1.toNat, n.2.toNat)]) ((n.1.toNat, n.2.toNat) :: visited)
            trace := by
          refine ⟨List.nodup_cons.mpr ⟨hvtd, hinv.vis_nodup⟩, ?_, ?_, ?_, ?_, ?_⟩
          · intro q hq
            rcases List.mem_cons.mp hq with rfl | hq'
            · exact ⟨hpin1, hpin2⟩
            · exact hinv.vis_inb q hq'
          · intro q hq
            rcases List.mem_append.mp hq with hq' | hq'
            · exact List.mem_cons_of_mem _ (hinv.queue_vis q hq')
            · rw [List.mem_singleton.mp hq']
              exact List.mem_cons_self _ _
          · exact fun q hq => List.mem_cons_of_mem _ (hinv.trace_vis q hq)
          · rw [← List.append_assoc, List.nodup_append]
            refine ⟨hinv.tq_nodup, List.nodup_singleton _, ?_⟩
            intro q hq hq'
            have hqp := List.mem_singleton.mp hq'
            rw [hqp] at hq
            rcases List.mem_append.mp hq with hq₁ | hq₂
            · exact hvtd (hinv.trace_vis _ hq₁)
            · exact hvtd (hinv.queue_vis _ hq₂)
          · intro q hq
            rcases List.mem_append.mp hq with hq' | hq'
            · exact hinv.queue_reach q hq'
            · right
              rw [List.mem_singleton.mp hq']
              exact ⟨c, hc, hadj n (List.mem_cons_self n cands) hg1 hg3⟩
        have hcard : ((n.1.toNat, n.2.toNat) :: visited).length ≤
            img.width * img.height :=
          nodup_inb_length_le _ _ _ hinv'.vis_nodup hinv'.vis_inb
        obtain ⟨hi1, hi2⟩ := ih (queue ++ [(n.1.toNat, n.2.toNat)])
          ((n.1.toNat, n.2.toNat) :: visited)
          (fun m hm => hadj m (List.mem_cons_of_mem n hm)) hinv'
        have hlen1 : (queue ++ [(n.1.toNat, n.2.toNat)]).length = queue.length + 1 := by
          simp
        have hlen2 : ((n.1.toNat, n.2.toNat) :: visited).length = visited.length + 1 := by
          simp
        have hmeas : (queue ++ [(n.1.toNat, n.2.toNat)]).length +
            (img.width * img.height - ((n.1.toNat, n.2.toNat) :: visited).length) ≤
            queue.length + (img.width * img.height - visited.length) := by
          rw [hlen1, hlen2]
          rw [hlen2] at hcard
          omega
        exact ⟨hi1, le_trans hi2 hmeas⟩
    · have hstep : enqOne img.width img.height (queue, visited) n =
          (queue, visited) := by
        simp [enqOne, hg]
      rw [hstep]
      exact ih queue visited (fun m hm => hadj m (List.mem_cons_of_mem n hm)) hinv

/-- Soundness and termination of the flood loop: under the invariant, with
fuel at least the measure `|queue| + (w*h - |visited|)`, the loop returns;
the processed trace is duplicate-free and in bounds; every marked pixel was
already marked or is tolerance-reachable from the seed; and marking only
grows. -/
lemma floodLoop_sound (img : Img) (seed_color : RGBA) (tolerance : Int)
    (seed : Pix) :
    ∀ (fuel : Nat) (queue visited marked trace : List Pix),
      FloodInv img seed_color tolerance seed queue visited trace →
      queue.length + (img.width * img.height - visited.length) ≤ fuel →
      ∃ mk tr, floodLoop img seed_color tolerance fuel queue visited marked
          trace = some (mk, tr) ∧ tr.Nodup ∧
        (∀ p ∈ tr, p.1 < img.width ∧ p.2 < img.height) ∧
        (∀ p ∈ mk, p ∈ marked ∨ ReachTol img seed_color tolerance seed p) ∧
        (∀ p ∈ marked, p ∈ mk) := by
  intro fuel
  induction fuel with
  | zero =>
    intro queue visited marked trace hinv hfuel
    cases queue with
    | nil =>
      refine ⟨marked, trace, floodLoop_nil _ _ _ _ _ _ _, ?_, ?_, ?_, ?_⟩
      · have h := hinv.tq_nodup
        rwa [List.append_nil] at h
      · exact fun p hp => hinv.vis_inb p (hinv.trace_vis p hp)
      · exact fun p hp => Or.inl hp
      · exact fun p hp => hp
    | cons c rest =>
      exfalso
      simp only [List.length_cons] at hfuel
      omega
  | succ fuel ih =>
    intro queue visited marked trace hinv hfuel
    cases queue with
    | nil =>
      refine ⟨marked, trace, floodLoop_nil _ _ _ _ _ _ _, ?_, ?_, ?_, ?_⟩
      · have h := hinv.tq_nodup
        rwa [List.append_nil] at h
      · exact fun p hp => hinv.vis_inb p (hinv.trace_vis p hp)
      · exact fun p hp => Or.inl hp
      · exact fun p hp => hp
    | cons c rest =>
      obtain ⟨cx, cy⟩ := c
      have hinv_rest : FloodInv img seed_color tolerance seed rest visited
          ((cx, cy) :: trace) := by
        refine ⟨hinv.vis_nodup, hinv.vis_inb, ?_, ?_, ?_, ?_⟩
        · exact fun p hp => hinv.queue_vis p (List.mem_cons_of_mem _ hp)
        · intro p hp
          rcases List.mem_cons.mp hp with rfl | hp'
          · exact hinv.queue_vis _ (List.mem_cons_self _ _)
          · exact hinv.trace_vis p hp'
        · have hperm : (trace ++ (cx, cy) :: rest).Perm
              ((cx, cy) :: (trace ++ rest)) := List.perm_middle
          exact hperm.nodup_iff.mp hinv.tq_nodup
        · exact fun p hp => hinv.queue_reach p (List.mem_cons_of_mem _ hp)
      have hfuel_rest : rest.length +
          (img.width * img.height - visited.length) ≤ fuel := by
        simp only [List.length_cons] at hfuel
        omega
      by_cases htol : (colorDiff (img.pix cx cy) seed_color : Int) ≤ tolerance
      · have hreach : ReachTol img seed_color tolerance seed (cx, cy) := by
          rcases hinv.queue_reach (cx, cy) (List.mem_cons_self _ _) with
            heq | ⟨q, hq, hadj⟩
          · have h1 : cx = seed.1 := by rw [← heq]
            have h2 : cy = seed.2 := by rw [← heq]
            rw [heq]
            exact ReachTol.refl (by rw [h1, h2] at htol; exact htol)
          · exact ReachTol.step q (cx, cy) hq hadj htol
        have hcands : ∀ n ∈ nbrCandidates cx cy, 0 ≤ n.1 → 0 ≤ n.2 →
            adjPix (cx, cy) (n.1.toNat, n.2.toNat) := by
          intro n hn hn1 hn2
          simp only [nbrCandidates, List.mem_cons, List.mem_singleton,
            List.not_mem_nil, or_false] at hn
          rcases hn with rfl | rfl | rfl | rfl
          · exact Or.inl ⟨show cx = ((cx : Int)).toNat by omega,
              Or.inl (show cy + 1 = ((cy : Int) + 1).toNat by omega)⟩
          · exact Or.inl ⟨show cx = ((cx : Int)).toNat by omega,
              Or.inr (show ((cy : Int) - 1).toNat + 1 = cy by
                simp only at hn2; omega)⟩
          · exact Or.inr ⟨show cy = ((cy : Int)).toNat by omega,
              Or.inl (show cx + 1 = ((cx : Int) + 1).toNat by omega)⟩
          · exact Or.inr ⟨show cy = ((cy : Int)).toNat by omega,
              Or.inr (show ((cx : Int) - 1).toNat + 1 = cx by
                simp only at hn1; omega)⟩
        obtain ⟨hinv', hmeas⟩ := enqFold_inv img seed_color tolerance seed
          (cx, cy) ((cx, cy) :: trace) hreach (nbrCandidates cx cy) rest
          visited hcands hinv_rest
        have hfuel' : ((nbrCandidates cx cy).foldl
            (enqOne img.width img.height) (rest, visited)).1.length +
            (img.width * img.height -
              ((nbrCandidates cx cy).foldl (enqOne img.width img.height)
                (rest, visited)).2.length) ≤ fuel :=
          le_trans hmeas hfuel_rest
        obtain ⟨mk, tr, heq2, hnd, hinb, hmk, hsub⟩ := ih _ _
          ((cx, cy) :: marked) ((cx, cy) :: trace) hinv' hfuel'
        refine ⟨mk, tr, ?_, hnd, hinb, ?_, ?_⟩
        · rw [show floodLoop img seed_color tolerance (fuel + 1)
              ((cx, cy) :: rest) visited marked trace =
              floodLoop img seed_color tolerance fuel
                ((nbrCandidates cx cy).foldl (enqOne img.width img.height)
                  (rest, visited)).1
                ((nbrCandidates cx cy).foldl (enqOne img.width img.height)
                  (rest, visited)).2
                ((cx, cy) :: marked) ((cx, cy) :: trace) from by
            simp [floodLoop, htol]]
          exact heq2
        · intro p hp
          rcases hmk p hp with hin | hre
          · rcases List.mem_cons.mp hin with rfl | hin'
            · exact Or.inr hreach
            · exact Or.inl hin'
          · exact Or.inr hre
        · exact fun p hp => hsub p (List.mem_cons_of_mem _ hp)
      · obtain ⟨mk, tr, heq2, hnd, hinb, hmk, hsub⟩ := ih rest visited marked
          ((cx, cy) :: trace) hinv_rest hfuel_rest
        refine ⟨mk, tr, ?_, hnd, hinb, hmk, hsub⟩
        rw [show floodLoop img seed_color tolerance (fuel + 1)
            ((cx, cy) :: rest) visited marked trace =
            floodLoop img seed_color tolerance fuel rest visited marked
              ((cx, cy) :: trace) from by simp [floodLoop, htol]]
        exact heq2

/-- The marked accumulator of the flood loop only grows. -/
lemma floodLoop_marked_mono (img : Img) (seed_color : RGBA) (tolerance : Int) :
    ∀ (fuel : Nat) (queue visited marked trace mk tr : List Pix),
      floodLoop img seed_color tolerance fuel queue visited marked trace =
        some (mk, tr) →
      ∀ p ∈ marked, p ∈ mk := by
  intro fuel
  induction fuel with
  | zero =>
    intro queue visited marked trace mk tr heq p hp
    cases queue with
    | nil =>
      rw [floodLoop_nil] at heq
      have h := Option.some.inj heq
      have hmk : marked = mk := congrArg Prod.fst h
      exact hmk ▸ hp
    | cons c rest =>
      obtain ⟨cx, cy⟩ := c
      simp [floodLoop] at heq
  | succ fuel ih =>
    intro queue visited marked trace mk tr heq p hp
    cases queue with
    | nil =>
      rw [floodLoop_nil] at heq
      have h := Option.some.inj heq
      have hmk : marked = mk := congrArg Prod.fst h
      exact hmk ▸ hp
    | cons c rest =>
      obtain ⟨cx, cy⟩ := c
      by_cases htol : (colorDiff (img.pix cx cy) seed_color : Int) ≤ tolerance
      · rw [show floodLoop img seed_color tolerance (fuel + 1)
            ((cx, cy) :: rest) visited marked trace =
            floodLoop img seed_color tolerance fuel
              ((nbrCandidates cx cy).foldl (enqOne img.width img.height)
                (rest, visited)).1
              ((nbrCandidates cx cy).foldl (enqOne img.width img.height)
                (rest, visited)).2
              ((cx, cy) :: marked) ((cx, cy) :: trace) from by
          simp [floodLoop, htol]] at heq
        exact ih _ _ _ _ _ _ heq p (List.mem_cons_of_mem _ hp)
      · rw [show floodLoop img seed_color tolerance (fuel + 1)
            ((cx, cy) :: rest) visited marked trace =
            floodLoop img seed_color tolerance fuel rest visited marked
              ((cx, cy) :: trace) from by simp [floodLoop, htol]] at heq
        exact ih _ _ _ _ _ _ heq p hp

/-- C6: every pixel marked by `magic_select` is reachable from the seed by a
4-connected path of pixels each within tolerance of the seed color (so no
pixel failing that condition is ever marked), and for tolerance ≥ 0 the
in-bounds seed itself is always marked. -/
theorem magic_select_containment (img : Img) (x y tolerance : Int)
    (res : List Pix) (hres : magic_select img x y tolerance = some res) :
    (∀ p ∈ res, ReachTol img (img.pix x.toNat y.toNat) tolerance
      (x.toNat, y.toNat) p) ∧
    (0 ≤ tolerance → (x.toNat, y.toNat) ∈ res) := by
  by_cases hb : x < 0 ∨ x ≥ (img.width : Int) ∨ y < 0 ∨ y ≥ (img.height : Int)
  · exfalso
    simp [magic_select, magic_select_run, hb] at hres
  · have hb' := hb
    push_neg at hb'
    obtain ⟨hb1, hb2, hb3, hb4⟩ := hb'
    have hsx : x.toNat < img.width := by omega
    have hsy : y.toNat < img.height := by omega
    have hinv0 : FloodInv img (img.pix x.toNat y.toNat) tolerance
        (x.toNat, y.toNat) [(x.toNat, y.toNat)] [(x.toNat, y.toNat)] [] := by
      refine ⟨List.nodup_singleton _, ?_, fun p hp => hp, ?_, ?_, ?_⟩
      · intro p hp
        rw [List.mem_singleton.mp hp]
        exact ⟨hsx, hsy⟩
      · intro p hp
        exact absurd hp (List.not_mem_nil p)
      · simp
      · intro p hp
        exact Or.inl (List.mem_singleton.mp hp)
    have hwh : 0 < img.width * img.height := Nat.mul_pos (by omega) (by omega)
    have hfuel : ([(x.toNat, y.toNat)] : List Pix).length +
        (img.width * img.height - ([(x.toNat, y.toNat)] : List Pix).length) ≤
        img.width * img.height := by
      simp only [List.length_singleton]
      omega
    obtain ⟨mk, tr, heq, hnd, hinb, hmk, hsub⟩ := floodLoop_sound img
      (img.pix x.toNat y.toNat) tolerance (x.toNat, y.toNat)
      (img.width * img.height) [(x.toNat, y.toNat)] [(x.toNat, y.toNat)] [] []
      hinv0 hfuel
    have hrun : magic_select_run img x y tolerance = some (mk, tr) := by
      unfold magic_select_run
      rw [if_neg hb]
      exact heq
    have hres_mk : res = mk := by
      unfold magic_select at hres
      rw [hrun] at hres
      simp only [Option.map_some'] at hres
      exact (Option.some.inj hres).symm
    constructor
    · intro p hp
      rw [hres_mk] at hp
      rcases hmk p hp with h0 | hre
      · exact absurd h0 (List.not_mem_nil p)
      · exact hre
    · intro htolpos
      obtain ⟨f, hf⟩ : ∃ f, img.width * img.height = f + 1 :=
        ⟨img.width * img.height - 1, by omega⟩
      have hdiff : (colorDiff (img.pix x.toNat y.toNat)
          (img.pix x.toNat y.toNat) : Int) ≤ tolerance := by
        rw [colorDiff_self]
        simpa using htolpos
      rw [hf] at heq
      rw [show floodLoop img (img.pix x.toNat y.toNat) tolerance (f + 1)
          [(x.toNat, y.toNat)] [(x.toNat, y.toNat)] [] [] =
          floodLoop img (img.pix x.toNat y.toNat) tolerance f
            ((nbrCandidates x.toNat y.toNat).foldl (enqOne img.width img.height)
              ([], [(x.toNat, y.toNat)])).1
            ((nbrCandidates x.toNat y.toNat).foldl (enqOne img.width img.height)
              ([], [(x.toNat, y.toNat)])).2
            [(x.toNat, y.toNat)] [(x.toNat, y.toNat)] from by
        simp [floodLoop, hdiff]] at heq
      have hseed := floodLoop_marked_mono img (img.pix x.toNat y.toNat)
        tolerance f _ _ _ _ mk tr heq (x.toNat, y.toNat)
        (List.mem_singleton_self _)
      rw [hres_mk]
      exact hseed

/-- C7: for every image and every tolerance (0, ≥ 765 or anything else),
the flood fill from an in-bounds seed terminates, and the visited-array
guard makes it process each pixel at most once: the trace of processed
pixels is duplicate-free and no longer than the pixel count. -/
theorem magic_select_terminates (img : Img) (x y tolerance : Int)
    (hx0 : 0 ≤ x) (hxw : x < (img.width : Int))
    (hy0 : 0 ≤ y) (hyh : y < (img.height : Int)) :
    ∃ mk tr, magic_select_run img x y tolerance = some (mk, tr) ∧
      tr.Nodup ∧ tr.length ≤ img.width * img.height := by
  have hsx : x.toNat < img.width := by omega
  have hsy : y.toNat < img.height := by omega
  have hinv0 : FloodInv img (img.pix x.toNat y.toNat) tolerance
      (x.toNat, y.toNat) [(x.toNat, y.toNat)] [(x.toNat, y.toNat)] [] := by
    refine ⟨List.nodup_singleton _, ?_, fun p hp => hp, ?_, ?_, ?_⟩
    · intro p hp
      rw [List.mem_singleton.mp hp]
      exact ⟨hsx, hsy⟩
    · intro p hp
      exact absurd hp (List.not_mem_nil p)
    · simp
    · intro p hp
      exact Or.inl (List.mem_singleton.mp hp)
  have hwh : 0 < img.width * img.height := Nat.mul_pos (by omega) (by omega)
  have hfuel : ([(x.toNat, y.toNat)] : List Pix).length +
      (img.width * img.height - ([(x.toNat, y.toNat)] : List Pix).length) ≤
      img.width * img.height := by
    simp only [List.length_singleton]
    omega
  obtain ⟨mk, tr, heq, hnd, hinb, _, _⟩ := floodLoop_sound img
    (img.pix x.toNat y.toNat) tolerance (x.toNat, y.toNat)
    (img.width * img.height) [(x.toNat, y.toNat)] [(x.toNat, y.toNat)] [] []
    hinv0 hfuel
  refine ⟨mk, tr, ?_, hnd, nodup_inb_length_le _ _ _ hnd hinb⟩
  unfold magic_select_run
  rw [if_neg (by omega)]
  exact heq

/-- A 2x1 image whose pixels differ in R by 10, for flood-fill witnesses. -/
def floodImg : Img :=
  ⟨2, 1, fun x _ => if x = 0 then ⟨0, 0, 0, 255⟩ else ⟨10, 0, 0, 255⟩⟩

/-- Witness for C6 at a concrete input: with tolerance 5 only the seed pixel
is marked, it is reachable, and the seed is in the result. -/
theorem magic_select_containment_witness :
    ∃ res, magic_select floodImg 0 0 5 = some res ∧
      (∀ p ∈ res, ReachTol floodImg
        (floodImg.pix (0 : Int).toNat (0 : Int).toNat) 5
        ((0 : Int).toNat, (0 : Int).toNat) p) ∧
      ((0 : Int) ≤ 5 → ((0 : Int).toNat, (0 : Int).toNat) ∈ res) :=
  ⟨[(0, 0)], by decide,
    magic_select_containment floodImg 0 0 5 [(0, 0)] (by decide)⟩

/-- Witness for C7 at a concrete input: tolerance 0 on the 2x1 image
terminates with a duplicate-free trace. -/
theorem magic_select_terminates_witness :
    ∃ mk tr, magic_select_run floodImg 0 0 0 = some (mk, tr) ∧
      tr.Nodup ∧ tr.length ≤ floodImg.width * floodImg.height :=
  magic_select_terminates floodImg 0 0 0 (by decide) (by decide) (by decide)
    (by decide)
